import Mathlib

/-!
Verification of the quran video generation pipeline
(src/quran_video_generator.py) against its natural-language specification.

The Python code is shallowly embedded: durations measured by the external
prober are rationals (`Option ℚ`, with `none` for a probe that exited with
non-zero status), the external services and the encoder are oracles supplied
as parameters, and each method of `QuranVideoGenerator` that the claims
touch becomes an executable Lean function with the same control flow.
-/

namespace QuranVideo

/-! ## Duration-budgeted downloader (`download_audio`, lines 233-281)

Each element of the input list is the probe outcome for one ayah once its
audio bytes have been written to `audio_i.mp3`: `some d` when ffprobe
printed duration `d`, `none` when it exited with non-zero status.  The
state mirrors the local variables `audio_files`, `total_duration` and
`ayahs_used`; `deletedArtifact` records the index whose file the early-stop
branch unlinks before `break`.
-/

structure DownloadState where
  audioFiles : List Nat
  totalDuration : ℚ
  ayahsUsed : Nat
  deletedArtifact : Option Nat
deriving DecidableEq

/-- The `for i, ayah in enumerate(ayahs)` loop of `download_audio`:
`i` is the enumeration index, `files`, `total`, `used` the accumulated
`audio_files`, `total_duration`, `ayahs_used`. -/
def downloadGo (maxDuration : ℚ) :
    List (Option ℚ) → Nat → List Nat → ℚ → Nat → DownloadState
  | [], _, files, total, used => ⟨files, total, used, none⟩
  | probe :: rest, i, files, total, used =>
    match probe with
    | some duration =>
      let total2 := total + duration
      if maxDuration < total2 ∧ 0 < i then
        ⟨files, total2, used, some i⟩
      else
        downloadGo maxDuration rest (i + 1) (files ++ [i]) total2 (i + 1)
    | none =>
      downloadGo maxDuration rest (i + 1) (files ++ [i]) total (i + 1)

/-- `download_audio(ayahs, max_duration)`: returns the retained audio file
indices and the count of ayahs used (the Python default budget is 95.0). -/
def download_audio (probes : List (Option ℚ)) (maxDuration : ℚ) : DownloadState :=
  downloadGo maxDuration probes 0 [] 0 0

/-- Sum of the first `k` measured durations. -/
def sumTake (d : List ℚ) (k : Nat) : ℚ := (d.take k).sum

/-! ## Text splitting (`_split_text_smart`, lines 377-413)

Python strings are Lean `String`s.  `pySplit` models `text.split()`
(split on runs of whitespace, dropping empty pieces), `joinWords` models
`" ".join(words)`.
-/

/-- Helper for `pySplit`: walks the characters, `acc` holding the current
word reversed. -/
def pySplitAux : List Char → List Char → List (List Char)
  | [], [] => []
  | [], acc => [acc.reverse]
  | c :: cs, acc =>
    if c.isWhitespace then
      if acc = ([] : List Char) then pySplitAux cs []
      else acc.reverse :: pySplitAux cs []
    else pySplitAux cs (c :: acc)

/-- `text.split()` of Python: pieces of non-whitespace characters. -/
def pySplit (s : String) : List String :=
  (pySplitAux s.data []).map fun w => String.mk w

/-- `" ".join(words)` of Python. -/
def joinWords : List String → String
  | [] => ""
  | [w] => w
  | w :: ws => w ++ " " ++ joinWords ws

/-- The `for word in words` loop of `_split_text_smart`, carrying
`chunks`, `current_chunk`, `current_length` and `current_lines`.
Returns the final `chunks` and `current_chunk`. -/
def splitLoop (maxCharsPerLine maxLines : Nat) :
    List String → List String → List String → Nat → Nat →
      List String × List String
  | [], chunks, currentChunk, _, _ => (chunks, currentChunk)
  | word :: ws, chunks, currentChunk, currentLength, currentLines =>
    let wordLength := word.length + 1
    let potentialLength := currentLength + wordLength
    if maxCharsPerLine < potentialLength then
      if maxLines < currentLines + 1 then
        splitLoop maxCharsPerLine maxLines ws
          (if currentChunk ≠ [] then chunks ++ [joinWords currentChunk] else chunks)
          [word] wordLength 1
      else
        splitLoop maxCharsPerLine maxLines ws
          chunks (currentChunk ++ [word]) wordLength (currentLines + 1)
    else
      splitLoop maxCharsPerLine maxLines ws
        chunks (currentChunk ++ [word]) (currentLength + wordLength) currentLines

/-- `_split_text_smart(text, max_chars_per_line, max_lines)` (the Python
defaults are 40 and 2). -/
def split_text_smart (text : String) (maxCharsPerLine maxLines : Nat) :
    List String :=
  let words := pySplit text
  let r := splitLoop maxCharsPerLine maxLines words [] [] 0 1
  let chunks := if r.2 ≠ [] then r.1 ++ [joinWords r.2] else r.1
  if chunks ≠ [] then chunks else [text]

/-- Total of `len(word) + 1` over a word list: the exact quantity
`current_length` accumulates while no line break happens. -/
def sumLenPlus (ws : List String) : Nat := (ws.map fun w => w.length + 1).sum

/-! ## Subtitle timing (`create_subtitle_file`, lines 283-375)

Only the timing computation matters to the claims: per ayah, the cleaned
texts are split into chunks, `chunk_count` is the maximum chunk count over
the two languages, and the ayah duration is divided into `chunk_count`
equal shares starting at the running `current_time`.
-/

/-- `text.replace('\n', ' ')` of Python. -/
def pyReplaceNewline (s : String) : String :=
  String.mk (s.data.map fun c => if c = '\n' then ' ' else c)

/-- `text.strip()` of Python: leading and trailing whitespace removed. -/
def pyStrip (s : String) : String :=
  String.mk (((s.data.dropWhile Char.isWhitespace).reverse.dropWhile
    Char.isWhitespace).reverse)

/-- The two texts of one ayah as fetched (`ayah['arabic']`,
`ayah['translation']`). -/
structure AyahText where
  arabic : String
  translation : String
deriving DecidableEq

instance : Inhabited AyahText := ⟨⟨"", ""⟩⟩

/-- `arabic_chunks = self._split_text_smart(arabic_text, 25, 2)` after
cleaning (line 347). -/
def arabic_chunks (a : AyahText) : List String :=
  split_text_smart (pyStrip (pyReplaceNewline a.arabic)) 25 2

/-- `translation_chunks = self._split_text_smart(translation_text, 30, 2)`
after cleaning (line 348). -/
def translation_chunks (a : AyahText) : List String :=
  split_text_smart (pyStrip (pyReplaceNewline a.translation)) 30 2

/-- `chunk_count = max(len(arabic_chunks), len(translation_chunks))`
(line 351). -/
def chunk_count (a : AyahText) : Nat :=
  max (arabic_chunks a).length (translation_chunks a).length

/-- `chunk_duration = duration / chunk_count if chunk_count > 0 else
duration` (line 352). -/
def chunk_duration (a : AyahText) (duration : ℚ) : ℚ :=
  if 0 < chunk_count a then duration / (chunk_count a : ℚ) else duration

/-- The `[start, end)` interval of each chunk of one ayah starting at
`current_time` (lines 355-360): chunk `idx` starts at
`current_time + idx * chunk_duration` and ends `chunk_duration` later. -/
def unit_chunk_intervals (currentTime : ℚ) (a : AyahText) (duration : ℚ) :
    List (ℚ × ℚ) :=
  (List.range (chunk_count a)).map fun (idx : Nat) =>
    (currentTime + (idx : ℚ) * chunk_duration a duration,
     currentTime + (idx : ℚ) * chunk_duration a duration
       + chunk_duration a duration)

/-- The whole timeline: per ayah the chunk intervals, with `current_time`
advanced by the measured duration after each ayah (line 371). -/
def subtitle_timeline : ℚ → List (AyahText × ℚ) → List (List (ℚ × ℚ))
  | _, [] => []
  | currentTime, (a, duration) :: rest =>
    unit_chunk_intervals currentTime a duration ::
      subtitle_timeline (currentTime + duration) rest

/-- The per-file durations measured at lines 290-301: a probe that fails
gets the fallback `5.0`, a probe that succeeds its parsed value. -/
def subtitleDurations (probes : List (Option ℚ)) : List ℚ :=
  probes.map fun r =>
    match r with
    | some dur => dur
    | none => 5

/-- Consecutive intervals meet exactly: each interval ends where the next
begins. -/
def Chained : List (ℚ × ℚ) → Prop
  | [] => True
  | [_] => True
  | p :: q :: rest => p.2 = q.1 ∧ Chained (q :: rest)

instance instDecidableChained : (xs : List (ℚ × ℚ)) → Decidable (Chained xs)
  | [] => isTrue trivial
  | [_] => isTrue trivial
  | p :: q :: rest =>
    haveI := instDecidableChained (q :: rest)
    decidable_of_iff (p.2 = q.1 ∧ Chained (q :: rest)) Iff.rfl

/-- What the claim asserts of the timeline built by
`create_subtitle_file` over ayahs paired with measured durations: each
ayah starts at the cumulative duration of the prior ayahs, its duration is
divided into `chunk_count` equal shares, those shares tile the allocated
interval exactly, and the flattened collection is gap-free, overlap-free
and monotone. -/
def SubtitleTimelineSpec (pairs : List (AyahText × ℚ)) : Prop :=
  (subtitle_timeline 0 pairs).length = pairs.length
  ∧ (∀ i, i < pairs.length →
      (subtitle_timeline 0 pairs).getD i [] =
        unit_chunk_intervals (sumTake (pairs.map Prod.snd) i)
          (pairs.getD i default).1 (pairs.getD i default).2)
  ∧ (∀ i, i < pairs.length →
      1 ≤ chunk_count (pairs.getD i default).1
      ∧ ((subtitle_timeline 0 pairs).getD i []).length
          = chunk_count (pairs.getD i default).1
      ∧ (∀ j, j < chunk_count (pairs.getD i default).1 →
          ((subtitle_timeline 0 pairs).getD i []).getD j (0, 0) =
            (sumTake (pairs.map Prod.snd) i
                + j * ((pairs.getD i default).2
                    / (chunk_count (pairs.getD i default).1 : ℚ)),
             sumTake (pairs.map Prod.snd) i
                + (j + 1) * ((pairs.getD i default).2
                    / (chunk_count (pairs.getD i default).1 : ℚ))))
      ∧ (((subtitle_timeline 0 pairs).getD i []).getD 0 (0, 0)).1
          = sumTake (pairs.map Prod.snd) i
      ∧ (((subtitle_timeline 0 pairs).getD i []).getD
            (chunk_count (pairs.getD i default).1 - 1) (0, 0)).2
          = sumTake (pairs.map Prod.snd) i + (pairs.getD i default).2)
  ∧ Chained ((subtitle_timeline 0 pairs).flatten)
  ∧ (∀ p ∈ (subtitle_timeline 0 pairs).flatten, p.1 ≤ p.2)

/-! ## The run (`_generate_video_internal`, lines 633-785, and `_cleanup`,
lines 787-792)

The environment abstracts the caller and the external world: the optional
progress callback (None when no GUI is attached; its Bool answer is
whether to continue), the probe outcomes of the downloaded audio files,
the configured `max_duration`, and whether each encoder invocation
(merge, background preparation, composition with and without subtitles)
exits successfully.  The result records the outcome, whether `_cleanup`
ran, the scoped temporary artifacts still on disk at the end, and the
sequence of final-composition invocations (`true` = subtitle overlay
included).
-/

inductive PipelineError
  | mergeError
  | mediaToolError
  | compositionError
deriving DecidableEq

inductive Outcome
  | done
  | cancelled
  | failed (e : PipelineError)
deriving DecidableEq

inductive TempArtifact
  | audioFile (i : Nat)
  | concatList
  | mergedAudio
  | subtitleFile
  | backgroundClip
deriving DecidableEq

structure RunResult where
  outcome : Outcome
  cleanupRan : Bool
  residualTempFiles : List TempArtifact
  composeAttempts : List Bool
deriving DecidableEq

structure PipelineEnv where
  progressCallback : Option (Nat → Bool)
  probes : List (Option ℚ)
  maxDuration : ℚ
  mergeOk : Bool
  backgroundOk : Bool
  composeWithSubtitlesOk : Bool
  composeWithoutSubtitlesOk : Bool

/-- `if self.progress_callback and not self.progress_callback(pct)`:
true when the run must abort with `Cancelled by user`. -/
def cancelledAt (env : PipelineEnv) (pct : Nat) : Bool :=
  match env.progressCallback with
  | none => false
  | some cb => !(cb pct)

/-- `_generate_video_internal`, as far as outcome, cleanup and artifacts
are concerned.  Every `raise` path (cancellation checkpoints, a failed
merge, a failed background preparation, a final composition that fails
with and then without subtitles) leaves the method before the
`self._cleanup()` call at line 780, which only the success path reaches. -/
def generate_video_internal (env : PipelineEnv) : RunResult :=
  if cancelledAt env 5 then ⟨.cancelled, false, [], []⟩
  else if cancelledAt env 10 then ⟨.cancelled, false, [], []⟩
  else
    let audio := (download_audio env.probes
      (env.maxDuration * 0.95)).audioFiles.map TempArtifact.audioFile
    if cancelledAt env 40 then ⟨.cancelled, false, audio, []⟩
    else if !env.mergeOk then
      ⟨.failed .mergeError, false, audio ++ [.concatList], []⟩
    else
      let merged := audio ++ [.concatList, .mergedAudio]
      if cancelledAt env 50 then ⟨.cancelled, false, merged, []⟩
      else
        let withSubs := merged ++ [.subtitleFile]
        if cancelledAt env 60 then ⟨.cancelled, false, withSubs, []⟩
        else if !env.backgroundOk then
          ⟨.failed .mediaToolError, false, withSubs, []⟩
        else
          let prepared := withSubs ++ [.backgroundClip]
          if cancelledAt env 70 then ⟨.cancelled, false, prepared, []⟩
          else if env.composeWithSubtitlesOk then
            if cancelledAt env 95 then ⟨.cancelled, false, prepared, [true]⟩
            else ⟨.done, true, [], [true]⟩
          else if env.composeWithoutSubtitlesOk then
            if cancelledAt env 95 then
              ⟨.cancelled, false, prepared, [true, false]⟩
            else ⟨.done, true, [], [true, false]⟩
          else ⟨.failed .compositionError, false, prepared, [true, false]⟩

/-! ## Content fetching (`get_ayah_data`, lines 181-231)

The lookup service is an oracle mapping each ayah number to what
`requests.get` + `response.json()` yield: `unreachable` models the
transport exception that `requests.get` raises and that propagates out of
the method, `response code hasAudio` a JSON answer with the given status
code and with or without an audio reference. -/

inductive ApiResult
  | unreachable
  | response (code : Nat) (hasAudio : Bool)
deriving DecidableEq

/-- The typed failure the run ends with when the lookup service is
unreachable (the propagated transport error). -/
inductive UpstreamError
  | connectionError
deriving DecidableEq

/-- A response that yields an appended ayah: status 200 and an audio
reference present. -/
def keepsAyah : ApiResult → Bool
  | .unreachable => false
  | .response code hasAudio => code == 200 && hasAudio

/-- The `for ayah_num in range(ayah_start, ayah_end + 1)` loop: an
unreachable service raises out of the loop; a 200 response without audio
hits `continue`; a non-200 response falls off the `if` and is silently
skipped; a 200 response with audio is appended. -/
def get_ayah_data_go (api : Nat → ApiResult) :
    List Nat → Except UpstreamError (List Nat)
  | [] => .ok []
  | n :: rest =>
    match api n with
    | .unreachable => .error .connectionError
    | .response code hasAudio =>
      if code = 200 then
        if !hasAudio then get_ayah_data_go api rest
        else (get_ayah_data_go api rest).map fun l => n :: l
      else get_ayah_data_go api rest

/-- `get_ayah_data(surah, ayah_start, ayah_end)`: the returned value is
the list of ayah numbers actually fetched. -/
def get_ayah_data (api : Nat → ApiResult) (ayah_start ayah_end : Nat) :
    Except UpstreamError (List Nat) :=
  get_ayah_data_go api (List.range' ayah_start (ayah_end + 1 - ayah_start))

/-! ## Helper lemmas -/

theorem sumTake_zero (d : List ℚ) : sumTake d 0 = 0 := rfl

theorem sumTake_cons_succ (x : ℚ) (xs : List ℚ) (k : Nat) :
    sumTake (x :: xs) (k + 1) = x + sumTake xs k := by
  simp [sumTake, List.take_succ_cons]

theorem sumTake_length (d : List ℚ) : sumTake d d.length = d.sum := by
  simp [sumTake]

/-- Master characterization of the loop on a list of successful probes,
entered at index `i ≥ 1` with running total `t` and `files = range i`,
`used = i`: either every remaining unit is retained and every budget check
passed, or the loop broke at relative index `k` right after the running
total first strictly exceeded the budget. -/
theorem downloadGo_some_spec (B : ℚ) (d : List ℚ) :
    ∀ (i : Nat) (t : ℚ), 0 < i →
      (downloadGo B (d.map some) i (List.range i) t i =
          ⟨List.range (i + d.length), t + d.sum, i + d.length, none⟩
        ∧ ∀ j, 1 ≤ j → j ≤ d.length → t + sumTake d j ≤ B)
      ∨ (∃ k, k < d.length ∧
          downloadGo B (d.map some) i (List.range i) t i =
            ⟨List.range (i + k), t + sumTake d (k + 1), i + k, some (i + k)⟩
          ∧ B < t + sumTake d (k + 1)
          ∧ ∀ j, 1 ≤ j → j ≤ k → t + sumTake d j ≤ B) := by
  induction d with
  | nil =>
    intro i t _
    left
    constructor
    · simp [downloadGo]
    · intro j h1 h2
      simp only [List.length_nil] at h2
      omega
  | cons x xs ih =>
    intro i t hi
    by_cases hover : B < t + x
    · right
      refine ⟨0, by simp, ?_, ?_, ?_⟩
      · simp only [List.map_cons, downloadGo]
        rw [if_pos ⟨hover, hi⟩]
        simp [sumTake_cons_succ, sumTake_zero]
      · simpa [sumTake_cons_succ, sumTake_zero] using hover
      · intro j h1 h2
        omega
    · have hstep :
          downloadGo B ((x :: xs).map some) i (List.range i) t i =
            downloadGo B (xs.map some) (i + 1) (List.range (i + 1)) (t + x) (i + 1) := by
        simp only [List.map_cons, downloadGo]
        rw [if_neg (by tauto), List.range_succ]
      rcases ih (i + 1) (t + x) (by omega) with ⟨heq, hchk⟩ | ⟨k, hk, heq, hover2, hchk⟩
      · left
        constructor
        · have hlen : i + 1 + xs.length = i + (x :: xs).length := by
            simp only [List.length_cons]
            omega
          rw [hstep, heq, hlen, List.sum_cons, add_assoc]
        · intro j h1 h2
          simp only [List.length_cons] at h2
          match j, h1 with
          | 1, _ =>
            simpa [sumTake_cons_succ, sumTake_zero] using le_of_not_lt hover
          | (j' + 2), _ =>
            have := hchk (j' + 1) (by omega) (by omega)
            simpa [sumTake_cons_succ, add_assoc] using this
      · right
        refine ⟨k + 1, by simp only [List.length_cons]; omega, ?_, ?_, ?_⟩
        · have hik : i + 1 + k = i + (k + 1) := by omega
          rw [hstep, heq, hik, sumTake_cons_succ, add_assoc]
        · rw [sumTake_cons_succ, ← add_assoc]
          exact hover2
        · intro j h1 h2
          match j, h1 with
          | 1, _ =>
            simpa [sumTake_cons_succ, sumTake_zero] using le_of_not_lt hover
          | (j' + 2), _ =>
            have := hchk (j' + 1) (by omega) (by omega)
            simpa [sumTake_cons_succ, add_assoc] using this

/-- Top-level characterization of `download_audio` when every probe
succeeds with the measured durations `d`. -/
theorem download_audio_some_spec (d : List ℚ) (B : ℚ) :
    (download_audio (d.map some) B =
        ⟨List.range d.length, d.sum, d.length, none⟩
      ∧ ∀ j, 2 ≤ j → j ≤ d.length → sumTake d j ≤ B)
    ∨ (∃ k, 1 ≤ k ∧ k < d.length ∧
        download_audio (d.map some) B =
          ⟨List.range k, sumTake d (k + 1), k, some k⟩
        ∧ B < sumTake d (k + 1)
        ∧ ∀ j, 2 ≤ j → j ≤ k → sumTake d j ≤ B) := by
  match d with
  | [] =>
    left
    constructor
    · simp [download_audio, downloadGo]
    · intro j h1 h2
      simp only [List.length_nil] at h2
      omega
  | x :: xs =>
    have hstep :
        download_audio ((x :: xs).map some) B =
          downloadGo B (xs.map some) 1 (List.range 1) x 1 := by
      simp only [download_audio, List.map_cons, downloadGo]
      rw [if_neg (by simp)]
      simp [List.range_succ]
    rcases downloadGo_some_spec B xs 1 x (by omega) with
      ⟨heq, hchk⟩ | ⟨k, hk, heq, hover, hchk⟩
    · left
      constructor
      · have hlen : 1 + xs.length = (x :: xs).length := by
          simp only [List.length_cons]
          omega
        rw [hstep, heq, hlen, List.sum_cons]
      · intro j h1 h2
        simp only [List.length_cons] at h2
        match j, h1 with
        | (j' + 2), _ =>
          have := hchk (j' + 1) (by omega) (by omega)
          simpa [sumTake_cons_succ, add_assoc] using this
    · right
      refine ⟨k + 1, by omega, by simp only [List.length_cons]; omega, ?_, ?_, ?_⟩
      · have h1k : 1 + k = k + 1 := by omega
        rw [hstep, heq, h1k, sumTake_cons_succ]
      · rw [sumTake_cons_succ]
        exact hover
      · intro j h1 h2
        match j, h1 with
        | (j' + 2), _ =>
          have := hchk (j' + 1) (by omega) (by omega)
          simpa [sumTake_cons_succ, add_assoc] using this

/-- The loop never decreases `ayahs_used` below its entry value. -/
theorem downloadGo_used_ge (B : ℚ) :
    ∀ (probes : List (Option ℚ)) (i : Nat) (files : List Nat) (total : ℚ)
      (used : Nat), used ≤ i →
      used ≤ (downloadGo B probes i files total used).ayahsUsed := by
  intro probes
  induction probes with
  | nil =>
    intro i files total used _
    simp [downloadGo]
  | cons p rest ih =>
    intro i files total used h
    match p with
    | some dur =>
      simp only [downloadGo]
      split
      · simp
      · exact le_trans (by omega)
          (ih (i + 1) (files ++ [i]) (total + dur) (i + 1) (le_refl _))
    | none =>
      simp only [downloadGo]
      exact le_trans (by omega)
        (ih (i + 1) (files ++ [i]) total (i + 1) (le_refl _))

/-- A `break` (which is the only way `deletedArtifact` gets set) happens
only at a unit whose probe succeeded: a probe failure never triggers the
early stop. -/
theorem downloadGo_deleted_probe_ok (B : ℚ) :
    ∀ (probes : List (Option ℚ)) (i : Nat) (files : List Nat) (total : ℚ)
      (used : Nat) (j : Nat),
      (downloadGo B probes i files total used).deletedArtifact = some j →
      i ≤ j ∧ ∃ dur : ℚ, probes.get? (j - i) = some (some dur) := by
  intro probes
  induction probes with
  | nil =>
    intro i files total used j h
    simp [downloadGo] at h
  | cons p rest ih =>
    intro i files total used j h
    match p with
    | some dur =>
      rw [show downloadGo B (some dur :: rest) i files total used =
          (if B < total + dur ∧ 0 < i then ⟨files, total + dur, used, some i⟩
           else downloadGo B rest (i + 1) (files ++ [i]) (total + dur) (i + 1))
          from rfl] at h
      by_cases hc : B < total + dur ∧ 0 < i
      · rw [if_pos hc] at h
        simp only [Option.some.injEq] at h
        subst h
        exact ⟨le_refl _, dur, by simp⟩
      · rw [if_neg hc] at h
        obtain ⟨hij, dur2, hget⟩ := ih (i + 1) _ _ _ j h
        refine ⟨by omega, dur2, ?_⟩
        have hji : j - i = (j - (i + 1)) + 1 := by omega
        rw [hji]
        simpa using hget
    | none =>
      simp only [downloadGo] at h
      obtain ⟨hij, dur2, hget⟩ := ih (i + 1) _ _ _ j h
      refine ⟨by omega, dur2, ?_⟩
      have hji : j - i = (j - (i + 1)) + 1 := by omega
      rw [hji]
      simpa using hget

/-- When every probe fails, every unit is retained and the running total
never moves: no fallback duration enters the budget computation. -/
theorem downloadGo_all_none (B : ℚ) :
    ∀ (probes : List (Option ℚ)) (i : Nat) (files : List Nat) (total : ℚ),
      (∀ p ∈ probes, p = none) →
      (downloadGo B probes i files total i).totalDuration = total
      ∧ (downloadGo B probes i files total i).ayahsUsed = i + probes.length
      ∧ (downloadGo B probes i files total i).deletedArtifact = none := by
  intro probes
  induction probes with
  | nil =>
    intro i files total _
    simp [downloadGo]
  | cons p rest ih =>
    intro i files total h
    have hp : p = none := h p (by simp)
    subst hp
    simp only [downloadGo]
    obtain ⟨h1, h2, h3⟩ :=
      ih (i + 1) (files ++ [i]) total (fun q hq => h q (by simp [hq]))
    refine ⟨h1, ?_, h3⟩
    rw [h2]
    simp only [List.length_cons]
    omega

/-- C1: download_audio processes units in input order (the retained
artifact indices are exactly `0, …, k-1` for the retained count `k`) and,
after measuring unit `i` with `i ≥ 2`, stops exactly when the running
total strictly exceeds the budget: whenever a strict prefix is retained,
the total through the next unit strictly exceeds `B` and that next
artifact was deleted and not retained, while every running total up to and
including the retained count is at most `B` (so a total exactly equal to
`B` never triggers the stop).  For seven units of 10 seconds each against
a budget of 50, exactly 5 units are retained with a retained total of
50 seconds. -/
theorem download_audio_stops_on_strict_excess (d : List ℚ) (B : ℚ) :
    ((download_audio (d.map some) B).audioFiles =
        List.range (download_audio (d.map some) B).ayahsUsed)
    ∧ ((download_audio (d.map some) B).ayahsUsed < d.length →
        1 ≤ (download_audio (d.map some) B).ayahsUsed
        ∧ B < sumTake d ((download_audio (d.map some) B).ayahsUsed + 1)
        ∧ (download_audio (d.map some) B).deletedArtifact =
            some (download_audio (d.map some) B).ayahsUsed
        ∧ (download_audio (d.map some) B).ayahsUsed ∉
            (download_audio (d.map some) B).audioFiles)
    ∧ (∀ j, 2 ≤ j → j ≤ (download_audio (d.map some) B).ayahsUsed →
        sumTake d j ≤ B)
    ∧ (download_audio (List.replicate 7 (some (10 : ℚ))) 50).ayahsUsed = 5
    ∧ (download_audio (List.replicate 7 (some (10 : ℚ))) 50).audioFiles =
        List.range 5
    ∧ sumTake (List.replicate 7 (10 : ℚ)) 5 = 50 := by
  have scen1 :
      (download_audio (List.replicate 7 (some (10 : ℚ))) 50).ayahsUsed = 5 := by
    norm_num [download_audio, downloadGo, List.replicate]
  have scen2 :
      (download_audio (List.replicate 7 (some (10 : ℚ))) 50).audioFiles =
        List.range 5 := by
    norm_num [download_audio, downloadGo, List.replicate]
    decide
  have scen3 : sumTake (List.replicate 7 (10 : ℚ)) 5 = 50 := by
    norm_num [sumTake, List.replicate]
  rcases download_audio_some_spec d B with
    ⟨heq, hchk⟩ | ⟨k, hk1, hkn, heq, hover, hchk⟩
  · refine ⟨?_, ?_, ?_, scen1, scen2, scen3⟩
    · rw [heq]
    · intro hlt
      rw [heq] at hlt
      simp only at hlt
      omega
    · intro j h2 hj
      rw [heq] at hj
      exact hchk j (by omega) hj
  · refine ⟨?_, ?_, ?_, scen1, scen2, scen3⟩
    · rw [heq]
    · intro _
      rw [heq]
      exact ⟨hk1, hover, rfl, by simp [List.mem_range]⟩
    · intro j h2 hj
      rw [heq] at hj
      exact hchk j h2 hj

/-- C3: for every non-empty probe list and every budget, at least the
first unit is retained (the early-stop check requires `i > 0`), and in
particular a single unit measuring 9999 seconds against a budget of 10 is
retained. -/
theorem download_audio_retains_first_unit (probes : List (Option ℚ)) (B : ℚ)
    (h : probes ≠ []) :
    1 ≤ (download_audio probes B).ayahsUsed
    ∧ (download_audio [some (9999 : ℚ)] 10).ayahsUsed = 1 := by
  refine ⟨?_, by norm_num [download_audio, downloadGo]⟩
  match probes, h with
  | some dur :: rest, _ =>
    have hstep : download_audio (some dur :: rest) B =
        downloadGo B rest 1 [0] (0 + dur) 1 := by
      simp only [download_audio, downloadGo]
      rw [if_neg (by simp)]
      norm_num
    rw [hstep]
    exact downloadGo_used_ge B rest 1 [0] (0 + dur) 1 (le_refl 1)
  | none :: rest, _ =>
    have hstep : download_audio (none :: rest) B =
        downloadGo B rest 1 [0] 0 1 := rfl
    rw [hstep]
    exact downloadGo_used_ge B rest 1 [0] 0 1 (le_refl 1)

/-- Witness for C3 at a concrete input: the scenario of spec section 8,
one unit of 9999 seconds against a budget of 10 seconds. -/
theorem download_audio_retains_first_unit_witness :
    ([some (9999 : ℚ)] : List (Option ℚ)) ≠ []
    ∧ (1 ≤ (download_audio [some (9999 : ℚ)] 10).ayahsUsed
        ∧ (download_audio [some (9999 : ℚ)] 10).ayahsUsed = 1) := by
  refine ⟨by simp, ?_, ?_⟩
  · exact (download_audio_retains_first_unit [some (9999 : ℚ)] 10 (by simp)).1
  · exact (download_audio_retains_first_unit [some (9999 : ℚ)] 10 (by simp)).2

/-- C4 as stated is false: with measured durations `[9999, 10]` and budget
`10`, a strict prefix of length 1 < 2 is retained, yet the retained sum
9999 exceeds the budget (the first unit is kept unconditionally). -/
theorem download_budget_invariant_cex :
    (download_audio ([(9999 : ℚ), 10].map some) 10).ayahsUsed = 1
    ∧ (download_audio ([(9999 : ℚ), 10].map some) 10).ayahsUsed <
        [(9999 : ℚ), 10].length
    ∧ ¬ sumTake [(9999 : ℚ), 10]
        ((download_audio ([(9999 : ℚ), 10].map some) 10).ayahsUsed) ≤ 10 := by
  refine ⟨?_, ?_, ?_⟩ <;>
    norm_num [download_audio, downloadGo, sumTake]

/-- C4 amended: when download_audio retains a strict prefix of length
`k < n` with `k ≥ 2`, the sum of the retained measured durations is at
most the budget.  (For `k = 1` the first unit is retained
unconditionally, so its duration may exceed the budget.) -/
theorem download_budget_invariant_amended (d : List ℚ) (B : ℚ)
    (hlt : (download_audio (d.map some) B).ayahsUsed < d.length)
    (h2 : 2 ≤ (download_audio (d.map some) B).ayahsUsed) :
    sumTake d ((download_audio (d.map some) B).ayahsUsed) ≤ B := by
  rcases download_audio_some_spec d B with
    ⟨heq, _⟩ | ⟨k, _, _, heq, _, hchk⟩
  · rw [heq] at hlt
    simp only at hlt
    omega
  · rw [heq] at h2 ⊢
    exact hchk _ h2 (le_refl _)

/-- Witness for C4 amended at a concrete input: durations `[10, 10, 60]`
against budget 25 retain 2 units summing to 20 ≤ 25. -/
theorem download_budget_invariant_amended_witness :
    (download_audio ([(10 : ℚ), 10, 60].map some) 25).ayahsUsed <
        [(10 : ℚ), 10, 60].length
    ∧ 2 ≤ (download_audio ([(10 : ℚ), 10, 60].map some) 25).ayahsUsed
    ∧ sumTake [(10 : ℚ), 10, 60]
        ((download_audio ([(10 : ℚ), 10, 60].map some) 25).ayahsUsed) ≤ 25 := by
  refine ⟨?_, ?_, ?_⟩
  · norm_num [download_audio, downloadGo]
  · norm_num [download_audio, downloadGo]
  · exact download_budget_invariant_amended [(10 : ℚ), 10, 60] 25
      (by norm_num [download_audio, downloadGo])
      (by norm_num [download_audio, downloadGo])

/-- C8 as stated is false for the download phase: three probe-failed units
against the default budget 95 are all retained, yet the running total
stays 0 — no conservative fallback duration is assigned in place of the
failed measurements while downloading against the budget. -/
theorem probe_failure_no_fallback_in_download_cex :
    (download_audio [none, none, none] 95).ayahsUsed = 3
    ∧ (download_audio [none, none, none] 95).totalDuration = 0
    ∧ ¬ 0 < (download_audio [none, none, none] 95).totalDuration := by
  refine ⟨?_, ?_, ?_⟩ <;> norm_num [download_audio, downloadGo]

/-- C8 amended: a unit whose probe fails is retained anyway and the run
continues — the early stop only ever fires at a unit whose probe
succeeded, and when every probe fails all units are retained — but the
conservative fallback estimate (5.0 seconds) is assigned only when
building subtitle timing; during download a failed probe contributes
nothing to the running total. -/
theorem probe_failure_handling (probes : List (Option ℚ)) (B : ℚ) (j : Nat) :
    ((∀ p ∈ probes, p = none) →
        (download_audio probes B).ayahsUsed = probes.length
        ∧ (download_audio probes B).totalDuration = 0
        ∧ (download_audio probes B).deletedArtifact = none)
    ∧ (∀ i, (download_audio probes B).deletedArtifact = some i →
        ∃ dur : ℚ, probes.get? i = some (some dur))
    ∧ (probes.get? j = some none →
        (subtitleDurations probes).get? j = some 5) := by
  refine ⟨?_, ?_, ?_⟩
  · intro h
    obtain ⟨h1, h2, h3⟩ := downloadGo_all_none B probes 0 [] 0 h
    exact ⟨by simpa using h2, by simpa [download_audio] using h1, h3⟩
  · intro i h
    obtain ⟨_, dur, hget⟩ :=
      downloadGo_deleted_probe_ok B probes 0 [] 0 0 i h
    exact ⟨dur, by simpa using hget⟩
  · intro h
    have h2 : probes[j]? = some none := by
      simpa [← List.get?_eq_getElem?] using h
    simp [subtitleDurations, List.getElem?_map, h2]

/-- When no unit of the range hits an unreachable service, the fetch
returns exactly the units whose response has status 200 and an audio
reference. -/
theorem get_ayah_data_go_no_unreachable (api : Nat → ApiResult) :
    ∀ ns : List Nat, (∀ n ∈ ns, api n ≠ .unreachable) →
      get_ayah_data_go api ns = .ok (ns.filter fun n => keepsAyah (api n)) := by
  intro ns
  induction ns with
  | nil =>
    intro _
    rfl
  | cons n rest ih =>
    intro h
    have hn := h n (by simp)
    have hrest := ih fun q hq => h q (List.mem_cons_of_mem _ hq)
    match hx : api n with
    | .unreachable => exact absurd hx hn
    | .response code hasAudio =>
      rcases Bool.eq_false_or_eq_true hasAudio with hb | hb <;>
        subst hb <;>
          by_cases hc : code = 200 <;>
            simp [get_ayah_data_go, hx, hc, List.filter_cons, keepsAyah,
              hrest, Except.map]

/-- Any unreachable unit in the range aborts the whole fetch with the
propagated transport error. -/
theorem get_ayah_data_go_unreachable (api : Nat → ApiResult) :
    ∀ ns : List Nat, (∃ n ∈ ns, api n = .unreachable) →
      get_ayah_data_go api ns = .error .connectionError := by
  intro ns
  induction ns with
  | nil =>
    intro h
    simp at h
  | cons n rest ih =>
    intro h
    obtain ⟨m, hm, hu⟩ := h
    rcases List.mem_cons.mp hm with rfl | hm2
    · simp [get_ayah_data_go, hu]
    · match hx : api n with
      | .unreachable => simp [get_ayah_data_go, hx]
      | .response code hasAudio =>
        have htail := ih ⟨m, hm2, hu⟩
        rcases Bool.eq_false_or_eq_true hasAudio with hb | hb <;>
          subst hb <;>
            by_cases hc : code = 200 <;>
              simp [get_ayah_data_go, hx, hc, htail, Except.map]

/-- C7 as stated is false: a unit whose lookup returns a non-success
status (500) is silently omitted — the fetch returns an empty ok result
and no UpstreamError-typed failure is raised. -/
theorem get_ayah_data_nonsuccess_status_cex :
    get_ayah_data (fun _ => ApiResult.response 500 true) 1 1 =
        .ok ([] : List Nat)
    ∧ get_ayah_data (fun _ => ApiResult.response 500 true) 1 1 ≠
        .error .connectionError := by
  have hok : get_ayah_data (fun _ => ApiResult.response 500 true) 1 1 =
      .ok ([] : List Nat) := rfl
  refine ⟨hok, ?_⟩
  rw [hok]
  simp

/-- C7 amended: the fetch fails (with the propagated transport error)
exactly when the lookup service is unreachable for some unit of the
range; a non-success status for a unit does not fail or abort the run —
the unit is simply omitted from the returned sequence, mirroring the
handling of a unit with no audio reference. -/
theorem get_ayah_data_error_handling (api : Nat → ApiResult) (s e : Nat) :
    ((∃ n ∈ List.range' s (e + 1 - s), api n = .unreachable) ↔
        get_ayah_data api s e = .error .connectionError)
    ∧ ((∀ n ∈ List.range' s (e + 1 - s), api n ≠ .unreachable) →
        get_ayah_data api s e =
          .ok ((List.range' s (e + 1 - s)).filter fun n =>
            keepsAyah (api n))) := by
  constructor
  · constructor
    · intro h
      exact get_ayah_data_go_unreachable api _ h
    · intro h
      by_contra hno
      push_neg at hno
      rw [get_ayah_data,
        get_ayah_data_go_no_unreachable api _ hno] at h
      exact Except.noConfusion h
  · intro h
    exact get_ayah_data_go_no_unreachable api _ h

/-- Shared helper: `_split_text_smart` never returns an empty list (line
413 substitutes `[text]` for an empty chunk list). -/
theorem split_text_smart_ne_nil (text : String) (c l : Nat) :
    split_text_smart text c l ≠ [] := by
  unfold split_text_smart
  dsimp only
  split <;> split <;> simp_all

/-- Shared helper: every ayah has at least one chunk. -/
theorem chunk_count_pos (a : AyahText) : 1 ≤ chunk_count a := by
  have h1 : arabic_chunks a ≠ [] := split_text_smart_ne_nil _ 25 2
  have h2 : 0 < (arabic_chunks a).length := List.length_pos.mpr h1
  have h3 : (arabic_chunks a).length ≤ chunk_count a := le_max_left _ _
  omega

/-- Shared helper: because the chunk count is never zero, the guarded
division of line 352 always takes the `chunk_count > 0` branch. -/
theorem chunk_duration_eq (a : AyahText) (dur : ℚ) :
    chunk_duration a dur = dur / (chunk_count a : ℚ) := by
  have h : 0 < chunk_count a := chunk_count_pos a
  rw [chunk_duration, if_pos h]

/-- C10: for every input text (the empty string included) and positive
limits, `_split_text_smart` returns a non-empty chunk list; consequently
the per-ayah chunk_count of `create_subtitle_file` is at least 1 and the
duration division never divides by zero: the guarded else-branch is
unreachable. -/
theorem split_text_smart_never_empty (text : String) (c l : Nat)
    (_hc : 0 < c) (_hl : 0 < l) :
    split_text_smart text c l ≠ []
    ∧ (∀ a : AyahText, 1 ≤ chunk_count a)
    ∧ (∀ (a : AyahText) (dur : ℚ),
        chunk_duration a dur = dur / (chunk_count a : ℚ)) :=
  ⟨split_text_smart_ne_nil text c l, chunk_count_pos, chunk_duration_eq⟩

/-- Witness for C10 at a concrete input. -/
theorem split_text_smart_never_empty_witness :
    0 < 40 ∧ 0 < 2
    ∧ (split_text_smart "" 40 2 ≠ []
        ∧ (∀ a : AyahText, 1 ≤ chunk_count a)
        ∧ (∀ (a : AyahText) (dur : ℚ),
            chunk_duration a dur = dur / (chunk_count a : ℚ))) :=
  ⟨by decide, by decide,
    split_text_smart_never_empty "" 40 2 (by decide) (by decide)⟩

theorem sumLenPlus_cons (w : String) (ws : List String) :
    sumLenPlus (w :: ws) = w.length + 1 + sumLenPlus ws := by
  simp [sumLenPlus]

theorem sumLenPlus_append (a b : List String) :
    sumLenPlus (a ++ b) = sumLenPlus a + sumLenPlus b := by
  simp [sumLenPlus]

theorem sumLenPlus_take_le (ws : List String) (k : Nat) :
    sumLenPlus (ws.take k) ≤ sumLenPlus ws := by
  conv_rhs => rw [← List.take_append_drop k ws]
  rw [sumLenPlus_append]
  omega

/-- The length of the single-space join, in terms of the accumulated
word lengths: joining k words costs the word lengths plus k-1 spaces. -/
theorem joinWords_length (ws : List String) (h : ws ≠ []) :
    sumLenPlus ws = (joinWords ws).length + 1 := by
  induction ws with
  | nil => exact absurd rfl h
  | cons w ws ih =>
    match ws with
    | [] => simp [sumLenPlus, joinWords]
    | w2 :: ws2 =>
      have hj : joinWords (w :: w2 :: ws2) =
          w ++ " " ++ joinWords (w2 :: ws2) := rfl
      have hsp : (" " : String).length = 1 := rfl
      have htail := ih (by simp)
      rw [sumLenPlus_cons, htail, hj]
      simp [String.length_append, hsp]
      omega

/-- While every prospective `potential_length` stays within the line
limit, the loop simply accumulates all words into the current chunk and
never breaks a line. -/
theorem splitLoop_no_break (c l : Nat) :
    ∀ (ws chunks currentChunk : List String) (clen clines : Nat),
      (∀ n, n < ws.length → clen + sumLenPlus (ws.take (n + 1)) ≤ c) →
      splitLoop c l ws chunks currentChunk clen clines =
        (chunks, currentChunk ++ ws) := by
  intro ws
  induction ws with
  | nil =>
    intro chunks cc clen clines _
    simp [splitLoop]
  | cons w ws ih =>
    intro chunks cc clen clines h
    have h0 : clen + (w.length + 1) ≤ c := by
      have := h 0 (by simp)
      simpa [sumLenPlus_cons, sumLenPlus] using this
    simp only [splitLoop]
    rw [if_neg (by omega)]
    rw [ih chunks (cc ++ [w]) (clen + (w.length + 1)) clines ?succ_ok]
    · simp
    case succ_ok =>
      intro n hn
      have := h (n + 1) (by simpa using hn)
      simp only [List.take_succ_cons, sumLenPlus_cons] at this
      omega

/-- C9 as stated is false: the text `"a  b"` (double space) fits within
one chunk under limits 25/2, yet the splitter returns `["a b"]` — the
input is altered, its whitespace collapsed by the word join. -/
theorem split_text_smart_not_identity_cex :
    ("a  b" : String).length ≤ 25
    ∧ split_text_smart "a  b" 25 2 = ["a b"]
    ∧ split_text_smart "a  b" 25 2 ≠ ["a  b"] := by
  exact ⟨by decide, by decide, by decide⟩

/-- C9 amended: on text whose whitespace is already normalized (the text
equals the single-space join of its own words) and whose length is
strictly below the per-line character limit, `_split_text_smart` returns
exactly one chunk equal to the input, unaltered. -/
theorem split_text_smart_identity_on_normalized (text : String)
    (c l : Nat) (hnorm : text = joinWords (pySplit text))
    (hfit : text.length < c) :
    split_text_smart text c l = [text] := by
  by_cases hw : pySplit text = []
  · simp [split_text_smart, hw, splitLoop]
  · have hlen : sumLenPlus (pySplit text) = text.length + 1 := by
      rw [joinWords_length (pySplit text) hw, ← hnorm]
    have hloop := splitLoop_no_break c l (pySplit text) [] [] 0 1 ?words_fit
    · simp only [split_text_smart, hloop, List.nil_append]
      rw [if_pos hw, if_pos (by simp)]
      rw [← hnorm]
    case words_fit =>
      intro n _
      have := sumLenPlus_take_le (pySplit text) (n + 1)
      omega

/-- Witness for C9 amended at a concrete input: a normalized two-word
text of length 11 under limits 25/2 comes back as one unaltered chunk. -/
theorem split_text_smart_identity_witness :
    "hello world" = joinWords (pySplit "hello world")
    ∧ ("hello world" : String).length < 25
    ∧ split_text_smart "hello world" 25 2 = ["hello world"] := by
  refine ⟨by decide, by decide, ?_⟩
  exact split_text_smart_identity_on_normalized "hello world" 25 2
    (by decide) (by decide)

/-- C2 as stated is false: in a run whose final composition fails twice,
the outcome is Failed while every temporary artifact of the run (the
per-unit audio file, the concat list, the merged audio, the subtitle
file and the background clip) is still on disk — cleanup did not run. -/
theorem cleanup_skipped_on_failure_cex :
    (generate_video_internal
        ⟨none, [some 10], 100, true, true, false, false⟩).outcome =
      .failed .compositionError
    ∧ (generate_video_internal
        ⟨none, [some 10], 100, true, true, false, false⟩).residualTempFiles =
      [.audioFile 0, .concatList, .mergedAudio, .subtitleFile,
        .backgroundClip]
    ∧ (generate_video_internal
        ⟨none, [some 10], 100, true, true, false, false⟩).residualTempFiles
      ≠ [] := by
  have hres : (generate_video_internal
      ⟨none, [some 10], 100, true, true, false, false⟩).residualTempFiles =
      [.audioFile 0, .concatList, .mergedAudio, .subtitleFile,
        .backgroundClip] := by
    norm_num [generate_video_internal, cancelledAt, download_audio,
      downloadGo]
  refine ⟨?_, hres, ?_⟩
  · norm_num [generate_video_internal, cancelledAt, download_audio,
      downloadGo]
  · rw [hres]
    simp

/-- C2 amended: `_cleanup` runs exactly on the successful path; on
failure at any stage and on cancellation at any checkpoint the exception
leaves the method before the cleanup call, so the scoped temporary
artifacts created so far remain on disk.  Only a completed run ends with
zero residual temporary artifacts. -/
theorem cleanup_only_on_success (env : PipelineEnv) :
    ((generate_video_internal env).outcome = .done ↔
        (generate_video_internal env).cleanupRan = true)
    ∧ ((generate_video_internal env).outcome = .done →
        (generate_video_internal env).residualTempFiles = [])
    ∧ ((generate_video_internal env).outcome ≠ .done →
        (generate_video_internal env).cleanupRan = false) := by
  by_cases h5 : cancelledAt env 5
  case pos => simp [generate_video_internal, h5]
  by_cases h10 : cancelledAt env 10
  case pos => simp [generate_video_internal, h5, h10]
  by_cases h40 : cancelledAt env 40
  case pos => simp [generate_video_internal, h5, h10, h40]
  by_cases hm : env.mergeOk
  case neg => simp [generate_video_internal, h5, h10, h40, hm]
  by_cases h50 : cancelledAt env 50
  case pos => simp [generate_video_internal, h5, h10, h40, hm, h50]
  by_cases h60 : cancelledAt env 60
  case pos => simp [generate_video_internal, h5, h10, h40, hm, h50, h60]
  by_cases hb : env.backgroundOk
  case neg => simp [generate_video_internal, h5, h10, h40, hm, h50, h60, hb]
  by_cases h70 : cancelledAt env 70
  case pos =>
    simp [generate_video_internal, h5, h10, h40, hm, h50, h60, hb, h70]
  by_cases hc1 : env.composeWithSubtitlesOk
  case pos =>
    by_cases h95 : cancelledAt env 95
    · simp [generate_video_internal, h5, h10, h40, hm, h50, h60, hb, h70,
        hc1, h95]
    · simp [generate_video_internal, h5, h10, h40, hm, h50, h60, hb, h70,
        hc1, h95]
  by_cases hc2 : env.composeWithoutSubtitlesOk
  case pos =>
    by_cases h95 : cancelledAt env 95
    · simp [generate_video_internal, h5, h10, h40, hm, h50, h60, hb, h70,
        hc1, hc2, h95]
    · simp [generate_video_internal, h5, h10, h40, hm, h50, h60, hb, h70,
        hc1, hc2, h95]
  simp [generate_video_internal, h5, h10, h40, hm, h50, h60, hb, h70,
    hc1, hc2]

/-- C5 as stated is false in its cleanup conjunct: when both composition
invocations fail, the run ends Failed with CompositionError and the
second invocation omitted the subtitles, but `cleanupRan` is false — the
CalledProcessError of the retry propagates before `self._cleanup()`. -/
theorem composition_failure_no_cleanup_cex :
    (generate_video_internal
        ⟨none, [some 10], 100, true, true, false, false⟩).composeAttempts =
      [true, false]
    ∧ (generate_video_internal
        ⟨none, [some 10], 100, true, true, false, false⟩).cleanupRan =
      false := by
  constructor <;>
    norm_num [generate_video_internal, cancelledAt, download_audio,
      downloadGo]

/-- C5 amended: when the final composition invocation fails, the Composer
retries exactly once with the subtitle overlay omitted (video and audio
only); if that retry also fails, the run fails with a
CompositionError-typed failure and no output path is returned to the
caller — but cleanup has NOT run: the failure propagates before the
cleanup call, leaving the temporary artifacts in place. -/
theorem composition_double_failure (env : PipelineEnv)
    (h5 : cancelledAt env 5 = false) (h10 : cancelledAt env 10 = false)
    (h40 : cancelledAt env 40 = false) (h50 : cancelledAt env 50 = false)
    (h60 : cancelledAt env 60 = false) (h70 : cancelledAt env 70 = false)
    (hm : env.mergeOk = true) (hb : env.backgroundOk = true)
    (hc1 : env.composeWithSubtitlesOk = false)
    (hc2 : env.composeWithoutSubtitlesOk = false) :
    (generate_video_internal env).outcome = .failed .compositionError
    ∧ (generate_video_internal env).composeAttempts = [true, false]
    ∧ (generate_video_internal env).outcome ≠ .done
    ∧ (generate_video_internal env).cleanupRan = false := by
  unfold generate_video_internal
  simp [h5, h10, h40, h50, h60, h70, hm, hb, hc1, hc2]

/-- Witness for C5 amended at a concrete environment: no callback
attached, one downloaded unit, merge and background succeed, both
composition invocations fail. -/
theorem composition_double_failure_witness :
    cancelledAt ⟨none, [some 10], 100, true, true, false, false⟩ 5 = false
    ∧ cancelledAt ⟨none, [some 10], 100, true, true, false, false⟩ 10 = false
    ∧ cancelledAt ⟨none, [some 10], 100, true, true, false, false⟩ 40 = false
    ∧ cancelledAt ⟨none, [some 10], 100, true, true, false, false⟩ 50 = false
    ∧ cancelledAt ⟨none, [some 10], 100, true, true, false, false⟩ 60 = false
    ∧ cancelledAt ⟨none, [some 10], 100, true, true, false, false⟩ 70 = false
    ∧ ((generate_video_internal
          ⟨none, [some 10], 100, true, true, false, false⟩).outcome =
        .failed .compositionError
      ∧ (generate_video_internal
          ⟨none, [some 10], 100, true, true, false, false⟩).composeAttempts =
        [true, false]
      ∧ (generate_video_internal
          ⟨none, [some 10], 100, true, true, false, false⟩).outcome ≠ .done
      ∧ (generate_video_internal
          ⟨none, [some 10], 100, true, true, false, false⟩).cleanupRan =
        false) := by
  refine ⟨rfl, rfl, rfl, rfl, rfl, rfl, ?_⟩
  exact composition_double_failure
    ⟨none, [some 10], 100, true, true, false, false⟩
    rfl rfl rfl rfl rfl rfl rfl rfl rfl rfl

theorem subtitle_timeline_length (pairs : List (AyahText × ℚ)) :
    ∀ t : ℚ, (subtitle_timeline t pairs).length = pairs.length := by
  induction pairs with
  | nil =>
    intro t
    rfl
  | cons pr rest ih =>
    intro t
    obtain ⟨a, d⟩ := pr
    simp [subtitle_timeline, ih]

/-- Each ayah of the timeline starts at the entry time plus the cumulative
measured duration of all prior ayahs. -/
theorem subtitle_timeline_getD (pairs : List (AyahText × ℚ)) :
    ∀ (t : ℚ) (i : Nat), i < pairs.length →
      (subtitle_timeline t pairs).getD i [] =
        unit_chunk_intervals (t + sumTake (pairs.map Prod.snd) i)
          (pairs.getD i default).1 (pairs.getD i default).2 := by
  induction pairs with
  | nil =>
    intro t i h
    simp at h
  | cons pr rest ih =>
    intro t i h
    obtain ⟨a, d⟩ := pr
    match i with
    | 0 =>
      simp [subtitle_timeline, sumTake_zero]
    | i + 1 =>
      have hlen : i < rest.length := by
        simpa using h
      rw [show subtitle_timeline t ((a, d) :: rest) =
          unit_chunk_intervals t a d :: subtitle_timeline (t + d) rest
          from rfl]
      simp only [List.getD_cons_succ]
      rw [ih (t + d) i hlen, List.map_cons, sumTake_cons_succ, add_assoc]

theorem unit_chunk_intervals_length (t : ℚ) (a : AyahText) (d : ℚ) :
    (unit_chunk_intervals t a d).length = chunk_count a := by
  simp [unit_chunk_intervals]

theorem unit_chunk_intervals_ne_nil (t : ℚ) (a : AyahText) (d : ℚ) :
    unit_chunk_intervals t a d ≠ [] := by
  apply List.ne_nil_of_length_pos
  rw [unit_chunk_intervals_length]
  have := chunk_count_pos a
  omega

theorem unit_chunk_intervals_getD (t : ℚ) (a : AyahText) (d : ℚ) (j : Nat)
    (h : j < chunk_count a) :
    (unit_chunk_intervals t a d).getD j (0, 0) =
      (t + j * chunk_duration a d,
       t + j * chunk_duration a d + chunk_duration a d) := by
  rw [unit_chunk_intervals, List.getD_eq_getElem?_getD, List.getElem?_map,
    List.getElem?_range h]
  rfl

/-- The chunk intervals in the form of the specification: chunk `j` spans
`[offset + j*(d/c), offset + (j+1)*(d/c))`. -/
theorem unit_chunk_intervals_getD_spec (t : ℚ) (a : AyahText) (d : ℚ)
    (j : Nat) (h : j < chunk_count a) :
    (unit_chunk_intervals t a d).getD j (0, 0) =
      (t + j * (d / (chunk_count a : ℚ)),
       t + (j + 1) * (d / (chunk_count a : ℚ))) := by
  rw [unit_chunk_intervals_getD t a d j h, chunk_duration_eq]
  simp only [Prod.mk.injEq]
  refine ⟨trivial, ?_⟩
  ring

theorem unit_chunk_intervals_first (t : ℚ) (a : AyahText) (d : ℚ) :
    ((unit_chunk_intervals t a d).getD 0 (0, 0)).1 = t := by
  rw [unit_chunk_intervals_getD t a d 0 (chunk_count_pos a)]
  simp

theorem unit_chunk_intervals_last (t : ℚ) (a : AyahText) (d : ℚ) :
    ((unit_chunk_intervals t a d).getD (chunk_count a - 1) (0, 0)).2 =
      t + d := by
  have hc := chunk_count_pos a
  have hlt : chunk_count a - 1 < chunk_count a := by omega
  have hne : (chunk_count a : ℚ) ≠ 0 := Nat.cast_ne_zero.mpr (by omega)
  rw [unit_chunk_intervals_getD t a d _ hlt, chunk_duration_eq]
  dsimp only
  rw [Nat.cast_sub hc, Nat.cast_one]
  field_simp
  ring

theorem chained_cons (p : ℚ × ℚ) (xs : List (ℚ × ℚ)) (hx : Chained xs)
    (hp : ∀ q, xs.head? = some q → p.2 = q.1) : Chained (p :: xs) := by
  match xs with
  | [] => trivial
  | q :: rest => exact ⟨hp q rfl, hx⟩

theorem chained_map_range' (g : Nat → ℚ × ℚ)
    (h : ∀ j, (g j).2 = (g (j + 1)).1) :
    ∀ (n s : Nat), Chained ((List.range' s n).map g) := by
  intro n
  induction n with
  | zero =>
    intro s
    trivial
  | succ n ih =>
    intro s
    rw [show List.range' s (n + 1) = s :: List.range' (s + 1) n from rfl,
      List.map_cons]
    apply chained_cons _ _ (ih (s + 1))
    intro q hq
    cases n with
    | zero => simp at hq
    | succ m =>
      rw [show List.range' (s + 1) (m + 1) = (s + 1) :: List.range' (s + 2) m
        from rfl, List.map_cons] at hq
      simp only [List.head?_cons, Option.some.injEq] at hq
      rw [← hq]
      exact h s

theorem unit_chunk_intervals_chained (t : ℚ) (a : AyahText) (d : ℚ) :
    Chained (unit_chunk_intervals t a d) := by
  rw [unit_chunk_intervals, List.range_eq_range' (chunk_count a)]
  apply chained_map_range'
  intro j
  dsimp only
  push_cast
  ring

theorem unit_chunk_intervals_le (t : ℚ) (a : AyahText) (d : ℚ)
    (hd : 0 ≤ d) : ∀ p ∈ unit_chunk_intervals t a d, p.1 ≤ p.2 := by
  intro p hp
  have hcd : 0 ≤ chunk_duration a d := by
    rw [chunk_duration_eq]
    exact div_nonneg hd (by positivity)
  simp only [unit_chunk_intervals, List.mem_map, List.mem_range] at hp
  obtain ⟨j, _, rfl⟩ := hp
  dsimp only
  linarith

theorem unit_chunk_intervals_getLast_snd (t : ℚ) (a : AyahText) (d : ℚ) :
    ∀ p, (unit_chunk_intervals t a d).getLast? = some p → p.2 = t + d := by
  intro p hp
  rw [List.getLast?_eq_getElem?, unit_chunk_intervals_length] at hp
  have hgd := unit_chunk_intervals_last t a d
  rw [List.getD_eq_getElem?_getD, hp] at hgd
  simpa using hgd

theorem unit_chunk_intervals_head_fst (t : ℚ) (a : AyahText) (d : ℚ) :
    ∀ p, (unit_chunk_intervals t a d).head? = some p → p.1 = t := by
  intro p hp
  rw [List.head?_eq_getElem?] at hp
  have hgd := unit_chunk_intervals_first t a d
  rw [List.getD_eq_getElem?_getD, hp] at hgd
  simpa using hgd

theorem chained_append (xs ys : List (ℚ × ℚ)) (hx : Chained xs)
    (hy : Chained ys)
    (hlink : ∀ p q, xs.getLast? = some p → ys.head? = some q →
      p.2 = q.1) :
    Chained (xs ++ ys) := by
  induction xs with
  | nil => simpa using hy
  | cons p xs ih =>
    match xs, hx with
    | [], _ =>
      simp only [List.cons_append, List.nil_append]
      apply chained_cons p ys hy
      intro q hq
      exact hlink p q rfl hq
    | p2 :: xs2, ⟨h12, htail⟩ =>
      refine ⟨h12, ?_⟩
      apply ih htail
      intro r q hr hq
      refine hlink r q ?_ hq
      rw [List.getLast?_cons_cons]
      exact hr

/-- Every block of the timeline is the chunk-interval list of one of the
input ayahs. -/
theorem subtitle_timeline_mem (pairs : List (AyahText × ℚ)) :
    ∀ (t : ℚ) (blk : List (ℚ × ℚ)), blk ∈ subtitle_timeline t pairs →
      ∃ t2 a d, (a, d) ∈ pairs ∧ blk = unit_chunk_intervals t2 a d := by
  induction pairs with
  | nil =>
    intro t blk h
    simp [subtitle_timeline] at h
  | cons pr rest ih =>
    intro t blk h
    obtain ⟨a, d⟩ := pr
    rw [show subtitle_timeline t ((a, d) :: rest) =
        unit_chunk_intervals t a d :: subtitle_timeline (t + d) rest
        from rfl] at h
    rcases List.mem_cons.mp h with rfl | h2
    · exact ⟨t, a, d, by simp, rfl⟩
    · obtain ⟨t2, a2, d2, hmem, hblk⟩ := ih (t + d) blk h2
      exact ⟨t2, a2, d2, List.mem_cons_of_mem _ hmem, hblk⟩

/-- The flattened timeline is one continuous chain starting at the entry
time: every interval ends exactly where the next begins, within an ayah
and across ayah boundaries alike. -/
theorem subtitle_timeline_flatten_chained (pairs : List (AyahText × ℚ)) :
    ∀ t : ℚ,
      Chained ((subtitle_timeline t pairs).flatten)
      ∧ (∀ q, ((subtitle_timeline t pairs).flatten).head? = some q →
          q.1 = t)
      ∧ (pairs ≠ [] → (subtitle_timeline t pairs).flatten ≠ []) := by
  induction pairs with
  | nil =>
    intro t
    refine ⟨trivial, ?_, ?_⟩
    · intro q hq
      simp [subtitle_timeline] at hq
    · intro h
      exact absurd rfl h
  | cons pr rest ih =>
    intro t
    obtain ⟨a, d⟩ := pr
    have hcb := unit_chunk_intervals_chained t a d
    have hlast := unit_chunk_intervals_getLast_snd t a d
    have hhead := unit_chunk_intervals_head_fst t a d
    have hnn := unit_chunk_intervals_ne_nil t a d
    rw [show subtitle_timeline t ((a, d) :: rest) =
        unit_chunk_intervals t a d :: subtitle_timeline (t + d) rest
        from rfl, List.flatten_cons]
    generalize hU : unit_chunk_intervals t a d = U at hcb hlast hhead hnn ⊢
    obtain ⟨ihc, ihh, _⟩ := ih (t + d)
    obtain ⟨b, bs, rfl⟩ := List.exists_cons_of_ne_nil hnn
    refine ⟨?_, ?_, ?_⟩
    · apply chained_append _ _ hcb ihc
      intro p q hp hq
      rw [hlast p hp]
      exact (ihh q hq).symm
    · intro q hq
      rw [List.cons_append, List.head?_cons, Option.some.injEq] at hq
      subst hq
      exact hhead b rfl
    · intro _
      simp

/-- C6: the subtitle timeline built by create_subtitle_file over ayahs
with measured durations gives each ayah a starting offset equal to the
cumulative duration of all prior ayahs, divides the ayah duration into
chunk_count equal shares (chunk_count being the maximum chunk count
across the two languages), and the chunk intervals partition each ayah
interval with zero gap and zero overlap, the flattened collection being
one monotone chain of intervals. -/
theorem create_subtitle_file_timeline_partition
    (pairs : List (AyahText × ℚ)) (hd : ∀ pr ∈ pairs, 0 ≤ pr.2) :
    SubtitleTimelineSpec pairs := by
  obtain ⟨hcflat, _, _⟩ := subtitle_timeline_flatten_chained pairs 0
  refine ⟨subtitle_timeline_length pairs 0, ?_, ?_, hcflat, ?_⟩
  · intro i hi
    simpa using subtitle_timeline_getD pairs 0 i hi
  · intro i hi
    have hgetD := subtitle_timeline_getD pairs 0 i hi
    rw [zero_add] at hgetD
    refine ⟨chunk_count_pos _, ?_, ?_, ?_, ?_⟩
    · rw [hgetD, unit_chunk_intervals_length]
    · intro j hj
      rw [hgetD, unit_chunk_intervals_getD_spec _ _ _ j hj]
    · rw [hgetD, unit_chunk_intervals_first]
    · rw [hgetD, unit_chunk_intervals_last]
  · intro p hp
    rw [List.mem_flatten] at hp
    obtain ⟨blk, hblk, hpin⟩ := hp
    obtain ⟨t2, a2, d2, hmem, rfl⟩ := subtitle_timeline_mem pairs 0 blk hblk
    exact unit_chunk_intervals_le t2 a2 d2 (hd _ hmem) p hpin

/-- Witness for C6 at a concrete input: one ayah with short texts and a
measured duration of 10 seconds. -/
theorem create_subtitle_file_timeline_partition_witness :
    (∀ pr ∈ [((⟨"abc", "de"⟩ : AyahText), (10 : ℚ))], 0 ≤ pr.2)
    ∧ SubtitleTimelineSpec [((⟨"abc", "de"⟩ : AyahText), (10 : ℚ))] := by
  constructor
  · intro pr hpr
    rw [List.mem_singleton] at hpr
    subst hpr
    norm_num
  · apply create_subtitle_file_timeline_partition
    intro pr hpr
    rw [List.mem_singleton] at hpr
    subst hpr
    norm_num

end QuranVideo
